import Mathlib

/-!
Verification of the photo-editor core of `src/src/components/cpf/PhotoEditorModal.tsx`:
the flood-fill background eraser, the undo history stack, and the rotate/scale
render pipeline.  The stateful React component is embedded as explicit state
passing over an `EditorState`; the canvas `ImageData` byte array is a `List Nat`
of RGBA bytes; JavaScript out-of-range array reads (which yield `undefined`)
are modelled with `Option Nat`.
-/

/-- A canvas `ImageData` value: width, height and the flat RGBA byte array
(row-major, 4 bytes per pixel). -/
structure ImageData where
  width : Nat
  height : Nat
  data : List Nat
deriving DecidableEq, Repr

/-- The React component state of `PhotoEditorModal` that the editor core reads
and writes: `rotation`, `scale`, `history`, the current canvas bitmap, the
`bgRemoveMode` flag and `tolerance`. -/
structure EditorState where
  rotation : Nat
  scale : Nat
  history : List ImageData
  canvas : ImageData
  bgRemoveMode : Bool
  tolerance : Nat
deriving DecidableEq, Repr

/-- Reading `data[i]` on a JS typed array: an index that is negative or past the
end yields `undefined`, modelled as `none`. -/
def readByte (d : List Nat) (i : Int) : Option Nat :=
  if 0 ≤ i then d[i.toNat]? else none

/-- One conjunct `Math.abs(channel - target) <= tol` of the `matches` predicate
(line 121).  When either operand is `undefined` the JS subtraction yields `NaN`
and the comparison is false. -/
def absDiffLe (a t : Option Nat) (tol : Nat) : Bool :=
  match a, t with
  | some x, some y => decide (Nat.dist x y ≤ tol)
  | _, _ => false

/-- The `matches(idx)` predicate of `floodFill` (lines 121-131): each of R,G,B
within `tol` of the target colour, and alpha strictly positive. -/
def matchesB (d : List Nat) (tR tG tB : Option Nat) (tol : Nat) (idx : Int) : Bool :=
  absDiffLe (readByte d idx) tR tol &&
  absDiffLe (readByte d (idx + 1)) tG tol &&
  absDiffLe (readByte d (idx + 2)) tB tol &&
  (match readByte d (idx + 3) with
   | some a => decide (0 < a)
   | none => false)

/-- The mutable state of the `while` loop of `floodFill` (lines 133-151):
the byte array, the visited set (`Uint8Array` keyed by linear pixel index,
modelled as a `Finset`), and the coordinate work stack. -/
structure FillState where
  data : List Nat
  visited : Finset Nat
  stack : List (Int × Int)
deriving DecidableEq

/-- The `while (stack.length > 0)` loop of `floodFill` (lines 133-151), with a
fuel argument making the recursion structural; `none` means the fuel ran out.
Each iteration pops a coordinate pair, discards it when out of bounds, already
visited, or not matching, and otherwise marks it visited, clears its alpha byte
and pushes its four neighbours (the source pushes x+1, x-1, y+1, y-1 and pops
last-in-first-out, so y-1 ends on top). -/
def fillLoop (w h : Nat) (tR tG tB : Option Nat) (tol : Nat) :
    Nat → FillState → Option FillState
  | _, ⟨d, v, []⟩ => some ⟨d, v, []⟩
  | 0, _ => none
  | fuel + 1, ⟨d, v, (x, y) :: rest⟩ =>
    if x < 0 ∨ (w : Int) ≤ x ∨ y < 0 ∨ (h : Int) ≤ y then
      fillLoop w h tR tG tB tol fuel ⟨d, v, rest⟩
    else if (y * w + x).toNat ∈ v then
      fillLoop w h tR tG tB tol fuel ⟨d, v, rest⟩
    else if matchesB d tR tG tB tol ((y * w + x) * 4) then
      fillLoop w h tR tG tB tol fuel
        ⟨d.set ((y * w + x) * 4 + 3).toNat 0, insert (y * w + x).toNat v,
         (x, y - 1) :: (x, y + 1) :: (x - 1, y) :: (x + 1, y) :: rest⟩
    else
      fillLoop w h tR tG tB tol fuel ⟨d, v, rest⟩

/-- The `floodFill` callback (lines 95-154) as a state transformer: the
synchronous callback body only.  Note the source appends the pre-click
snapshot to `history` before the already-transparent early return, and
`putImageData` writes the mutated bytes back at the canvas size.  The
complete click gesture, including the `renderCanvas` re-run that the
`setHistory` call here triggers, is `clickOp` below.  The fuel `4*(w*h)+1` is
an upper bound on the number of loop iterations, proved sufficient below; the
`none` branch is unreachable. -/
def floodFill (s : EditorState) (startX startY : Int) : EditorState :=
  let buf := s.canvas
  let w := buf.width
  let h := buf.height
  let hist := s.history ++ [buf]
  let startIdx : Int := (startY * w + startX) * 4
  let tR := readByte buf.data startIdx
  let tG := readByte buf.data (startIdx + 1)
  let tB := readByte buf.data (startIdx + 2)
  if readByte buf.data (startIdx + 3) = some 0 then
    { s with history := hist }
  else
    match fillLoop w h tR tG tB s.tolerance (4 * (w * h) + 1)
        ⟨buf.data, ∅, [(startX, startY)]⟩ with
    | some st => { s with history := hist, canvas := ⟨w, h, st.data⟩ }
    | none => { s with history := hist }

/-- `handleCanvasClick` (lines 156-168): the synchronous callback, processed
only while erase mode is active.  (The display-to-buffer coordinate mapping
happens before this point; the arguments here are already buffer coordinates.
The complete gesture including the triggered re-render is `clickOp` below.) -/
def handleCanvasClick (s : EditorState) (x y : Int) : EditorState :=
  if s.bgRemoveMode then floodFill s x y else s

/-- `handleUndo` (lines 170-184): a no-op when the history holds at most one
entry; otherwise pop the last entry and restore the new last entry (including
its dimensions) as the current canvas. -/
def handleUndo (s : EditorState) : EditorState :=
  if s.history.length ≤ 1 then s
  else
    match (s.history.dropLast).getLast? with
    | some lastState => { s with history := s.history.dropLast, canvas := lastState }
    | none => s

/-- `renderCanvas` (lines 47-75) as a state transformer.  The canvas content
produced by `ctx.drawImage` is abstracted as a function `draw` from the current
rotation and scale to a bitmap (the drawing API itself is outside the pixel
model); when the history is empty the freshly rendered bitmap is pushed as the
single baseline entry.  Its `useCallback` dependencies (line 75) include
`history.length`, and the effect at lines 77-79 re-runs it whenever they
change, so every operation that alters the history (including a flood fill or
an undo) is followed by a redraw of the original image at the current rotation
and scale; the composed gesture operations below account for this. -/
def renderCanvas (draw : Nat → Nat → ImageData) (s : EditorState) : EditorState :=
  let buf := draw s.rotation s.scale
  if s.history.length = 0 then { s with canvas := buf, history := [buf] }
  else { s with canvas := buf }

/-- `handleRotate` (lines 81-87) followed by the `renderCanvas` effect that its
state updates trigger: clear the history, step the rotation by plus or minus 90
degrees mod 360, re-render.  `cw = true` is clockwise; the source computes the
counter-clockwise case as `(prev - 90 + 360) % 360`, which on naturals is
`(prev + 270) % 360`. -/
def handleRotate (draw : Nat → Nat → ImageData) (cw : Bool) (s : EditorState) : EditorState :=
  renderCanvas draw
    { s with history := [],
             rotation := if cw then (s.rotation + 90) % 360 else (s.rotation + 270) % 360 }

/-- `handleScaleChange` (lines 89-92) followed by the triggered `renderCanvas`:
clear the history, set the scale, re-render. -/
def handleScaleChange (draw : Nat → Nat → ImageData) (v : Nat) (s : EditorState) : EditorState :=
  renderCanvas draw { s with history := [], scale := v }

/-- The image-load effect (lines 33-44) followed by the triggered
`renderCanvas`: reset rotation to 0, scale to 100, clear the history,
re-render. -/
def loadImage (draw : Nat → Nat → ImageData) (s : EditorState) : EditorState :=
  renderCanvas draw { s with rotation := 0, scale := 100, history := [] }

/-- Number of binary digits of `n` (0 for `n = 0`), by fuel-bounded halving.
The fuel 1100 exceeds the bit length of every magnitude below the binary64
overflow threshold (about 2^1024), the range over which the float model here
is faithful; the editor magnitudes never approach it. -/
def bitsAux : Nat → Nat → Nat
  | 0, _ => 0
  | fuel + 1, n => if n = 0 then 0 else bitsAux fuel (n / 2) + 1

/-- Bit length of a natural number. -/
def bits (n : Nat) : Nat := bitsAux 1100 n

/-- Round the fraction n / d (d positive) to the nearest natural number, ties
to even: the IEEE 754 default rounding, applied below to scaled significands. -/
def rndNat (n d : Nat) : Nat :=
  let q := n / d
  let r := n % d
  if 2 * r < d then q
  else if d < 2 * r then q + 1
  else if q % 2 = 0 then q else q + 1

/-- Round the non-negative value (n / d) * 2^e to an IEEE binary64 double,
returned as an exact dyadic value (significand, binary exponent): n / d is
scaled into [2^52, 2^53) and rounded to the nearest integer, ties to even.
The exponent is unbounded, which agrees with binary64 everywhere below the
overflow threshold. -/
def flFrac (n d : Nat) (e : Int) : Nat × Int :=
  if n = 0 then (0, 0)
  else
    let bn := bits n
    let bd := bits d
    let e0 : Int := if d * 2 ^ bn ≤ n * 2 ^ bd then (bn : Int) - bd else (bn : Int) - bd - 1
    let s : Int := 52 - e0
    let m := if 0 ≤ s then rndNat (n * 2 ^ s.toNat) d else rndNat n (d * 2 ^ (-s).toNat)
    (m, e + e0 - 52)

/-- Truncation toward zero of the non-negative value m * 2^e. -/
def truncVal (m : Nat) (e : Int) : Nat :=
  if 0 ≤ e then m * 2 ^ e.toNat else m / 2 ^ (-e).toNat

/-- The output canvas dimensions computed by `renderCanvas` (lines 55-61),
with the JS Number arithmetic of the source modelled exactly:
`scaleFactor = scale / 100` is one binary64 division, `w = img.width *
scaleFactor` and `h = img.height * scaleFactor` are binary64 multiplications
(every operand and result rounded to 53 significant bits, to nearest, ties to
even), and the assignments to `canvas.width` / `canvas.height` convert through
WebIDL `unsigned long`: truncation toward zero, then reduction mod 2^32.
Width and height are swapped when the rotation is 90 or 270.  The rounding of
the products matters: at imgW = 90, scale = 70 the double product is just
below 63 and the canvas width becomes 62, one less than the exact floor. -/
def renderDims (imgW imgH rotation scale : Nat) : Nat × Nat :=
  let isVertical := rotation = 90 ∨ rotation = 270
  let sf := flFrac scale 100 0
  let wNum := flFrac imgW 1 0
  let hNum := flFrac imgH 1 0
  let w := flFrac (wNum.1 * sf.1) 1 (wNum.2 + sf.2)
  let h := flFrac (hNum.1 * sf.1) 1 (hNum.2 + sf.2)
  (truncVal (if isVertical then h else w).1 (if isVertical then h else w).2 % 2 ^ 32,
   truncVal (if isVertical then w else h).1 (if isVertical then w else h).2 % 2 ^ 32)

/-- One axis of the computed canvas size: the source length (a JS Number)
times the binary64 quotient scale/100, the product rounded to binary64, then
truncated by the WebIDL unsigned long conversion. -/
def jsScaledDim (len scale : Nat) : Nat :=
  let sf := flFrac scale 100 0
  let lNum := flFrac len 1 0
  let p := flFrac (lNum.1 * sf.1) 1 (lNum.2 + sf.2)
  truncVal p.1 p.2 % 2 ^ 32

/-- Modelled from the spec: the round-half-up rounding policy named in section
4.1 (`rounded to integer pixel dimensions, policy: round half up`), used only
to compare the spec text against the dimension computation of the source. -/
def roundHalfUp (n den : Nat) : Nat :=
  (n + den / 2) / den

/-- The EditorSession invariant claimed by the spec data model: the current
canvas equals the last history entry. -/
def histInv (s : EditorState) : Prop :=
  s.history.getLast? = some s.canvas

instance (s : EditorState) : Decidable (histInv s) := by
  unfold histInv; infer_instance

/-- 4-connectivity of two pixel coordinates (up, down, left, right). -/
def adjPix (p q : Nat × Nat) : Prop :=
  (q.1 = p.1 + 1 ∧ q.2 = p.2) ∨ (p.1 = q.1 + 1 ∧ q.2 = p.2) ∨
  (q.2 = p.2 + 1 ∧ q.1 = p.1) ∨ (p.2 = q.2 + 1 ∧ q.1 = p.1)

/-- The per-pixel inclusion predicate of the fill region, evaluated on a fixed
byte array: the `matches` test at the linear index of coordinate `p`. -/
def pixOk (d0 : List Nat) (tR tG tB : Option Nat) (tol w : Nat) (p : Nat × Nat) : Bool :=
  matchesB d0 tR tG tB tol (((p.2 * w + p.1 : Nat) : Int) * 4)

/-- Declarative reachability: `Reaches w h ok p q` holds when `q` is connected
to `p` by a 4-connected path of in-bounds pixels all satisfying `ok`
(including both endpoints). -/
inductive Reaches (w h : Nat) (ok : Nat × Nat → Bool) : Nat × Nat → Nat × Nat → Prop
  | refl (p : Nat × Nat) : p.1 < w → p.2 < h → ok p = true → Reaches w h ok p p
  | step {p q r : Nat × Nat} : Reaches w h ok p q → adjPix q r → r.1 < w → r.2 < h →
      ok r = true → Reaches w h ok p r

/-- The fill region actually computed by the code for a given bitmap, seed and
tolerance: the visited set left by the work-list loop (empty on the
already-transparent early return). -/
def fillRegion (buf : ImageData) (startX startY : Int) (tol : Nat) : Finset Nat :=
  let w := buf.width
  let h := buf.height
  let startIdx : Int := (startY * w + startX) * 4
  if readByte buf.data (startIdx + 3) = some 0 then ∅
  else
    match fillLoop w h (readByte buf.data startIdx) (readByte buf.data (startIdx + 1))
        (readByte buf.data (startIdx + 2)) tol (4 * (w * h) + 1)
        ⟨buf.data, ∅, [(startX, startY)]⟩ with
    | some st => st.visited
    | none => ∅

/-- The byte array is the original with the alpha byte of every pixel of `v`
cleared and nothing else changed. -/
def eraseInv (d0 d : List Nat) (v : Finset Nat) : Prop :=
  d.length = d0.length ∧
  ∀ i : Nat, d[i]? = if i % 4 = 3 ∧ i / 4 ∈ v then (d0[i]?).map (fun _ => 0) else d0[i]?

/-- The `matches` test at the linear pixel index `p`, with all reads expressed
through natural-number indexing. -/
def matchesN (d : List Nat) (tR tG tB : Option Nat) (tol : Nat) (p : Nat) : Bool :=
  absDiffLe d[p * 4]? tR tol &&
  absDiffLe d[p * 4 + 1]? tG tol &&
  absDiffLe d[p * 4 + 2]? tB tol &&
  (match d[p * 4 + 3]? with
   | some a => decide (0 < a)
   | none => false)

/-- Loop invariant for the flood-fill work loop. -/
structure FillInv (w h : Nat) (d0 : List Nat) (tR tG tB : Option Nat) (tol : Nat)
    (seed : Nat × Nat) (st : FillState) : Prop where
  vRange : ∀ p ∈ st.visited, p < w * h
  vOk : ∀ p ∈ st.visited, matchesN d0 tR tG tB tol p = true
  vReach : ∀ p ∈ st.visited, Reaches w h (pixOk d0 tR tG tB tol w) seed (p % w, p / w)
  dataInv : eraseInv d0 st.data st.visited
  stackSound : ∀ xy ∈ st.stack, ∀ c : Nat × Nat, ((c.1 : Int), (c.2 : Int)) = xy →
    c.1 < w → c.2 < h → pixOk d0 tR tG tB tol w c = true →
    Reaches w h (pixOk d0 tR tG tB tol w) seed c
  closure : ∀ p ∈ st.visited, ∀ q : Nat × Nat, adjPix (p % w, p / w) q → q.1 < w → q.2 < h →
    pixOk d0 tR tG tB tol w q = true →
    (q.2 * w + q.1) ∈ st.visited ∨ ((q.1 : Int), (q.2 : Int)) ∈ st.stack
  seedIn : (seed.2 * w + seed.1) ∈ st.visited ∨ ((seed.1 : Int), (seed.2 : Int)) ∈ st.stack

-- test unfolding of fillLoop one step
example (w h : Nat) (tR tG tB : Option Nat) (tol fuel : Nat) (d : List Nat) (v : Finset Nat)
    (x y : Int) (rest : List (Int × Int))
    (hoob : x < 0 ∨ (w : Int) ≤ x ∨ y < 0 ∨ (h : Int) ≤ y) :
    fillLoop w h tR tG tB tol (fuel + 1) ⟨d, v, (x, y) :: rest⟩ =
      fillLoop w h tR tG tB tol fuel ⟨d, v, rest⟩ := by
  rw [fillLoop]
  rw [if_pos hoob]

example (w h : Nat) (tR tG tB : Option Nat) (tol fuel : Nat) (d : List Nat) (v : Finset Nat)
    (x y : Int) (rest : List (Int × Int))
    (hin : ¬ (x < 0 ∨ (w : Int) ≤ x ∨ y < 0 ∨ (h : Int) ≤ y))
    (hnv : (y * w + x).toNat ∉ v)
    (hm : matchesB d tR tG tB tol ((y * w + x) * 4) = true) :
    fillLoop w h tR tG tB tol (fuel + 1) ⟨d, v, (x, y) :: rest⟩ =
      fillLoop w h tR tG tB tol fuel
        ⟨d.set ((y * w + x) * 4 + 3).toNat 0, insert (y * w + x).toNat v,
         (x, y - 1) :: (x, y + 1) :: (x - 1, y) :: (x + 1, y) :: rest⟩ := by
  rw [fillLoop]
  rw [if_neg hin, if_neg hnv, if_pos hm]

/-- The fill inclusion predicate of a given call: tolerance match against the
colour read at the seed index, alpha strictly positive. -/
def fillOk (buf : ImageData) (startX startY : Int) (tol : Nat) : Nat × Nat → Bool :=
  pixOk buf.data
    (readByte buf.data ((startY * buf.width + startX) * 4))
    (readByte buf.data ((startY * buf.width + startX) * 4 + 1))
    (readByte buf.data ((startY * buf.width + startX) * 4 + 2))
    tol buf.width

/-- Pixel `c` was made transparent by the fill: its alpha byte is 0 in `after`
and was strictly positive in `before`. -/
def erasedPix (before after : ImageData) (c : Nat × Nat) : Prop :=
  after.data[(c.2 * before.width + c.1) * 4 + 3]? = some 0 ∧
  ∃ a, before.data[(c.2 * before.width + c.1) * 4 + 3]? = some a ∧ 0 < a

/-- Concrete 1-pixel opaque bitmap shared by several witnesses. -/
def exBuf1 : ImageData := ⟨1, 1, [7, 7, 7, 255]⟩

/-- Concrete 1-pixel fully transparent bitmap. -/
def exBufT : ImageData := ⟨1, 1, [5, 5, 5, 0]⟩

/-- Concrete deterministic stand-in for the canvas drawing API. -/
def exDraw : Nat → Nat → ImageData := fun _ _ => exBuf1

/-- Concrete 2-by-1 bitmap: a black pixel next to a grey pixel, both opaque,
colours further apart than the tolerance used below. -/
def exBase21 : ImageData := ⟨2, 1, [0, 0, 0, 255, 100, 100, 100, 255]⟩

/-- A freshly loaded session on `exBase21` with erase mode on and tolerance 30. -/
def exSession : EditorState := ⟨0, 100, [exBase21], exBase21, true, 30⟩

/-- Concrete 2 by 2 bitmap: three near-black pixels (top-left, top-right,
bottom-right, colours within distance 5 of each other through the chain) and
one tolerance-incompatible grey pixel at bottom-left. -/
def exBuf22 : ImageData :=
  ⟨2, 2, [10, 10, 10, 255, 12, 12, 12, 255, 200, 200, 200, 255, 11, 11, 11, 255]⟩

/-- The complete click gesture, observed at quiescence: the
`handleCanvasClick` callback followed by the `renderCanvas` re-run that its
`setHistory` triggers (the `useCallback` dependencies at line 75 include
`history.length`, and the effect at lines 77-79 re-runs `renderCanvas`
whenever they change).  That re-render resets the canvas size and redraws the
rotated/scaled original image, overwriting the pixels the flood fill just
mutated.  When erase mode is off the callback changes no state, so no
re-render happens. -/
def clickOp (draw : Nat → Nat → ImageData) (s : EditorState) (x y : Int) : EditorState :=
  if s.bgRemoveMode then renderCanvas draw (handleCanvasClick s x y) else s

/-- The complete undo gesture, observed at quiescence: `handleUndo` followed
by the `renderCanvas` re-run its `setHistory` call triggers.  With at most one
history entry `handleUndo` changes no state, so no re-render happens. -/
def undoOp (draw : Nat → Nat → ImageData) (s : EditorState) : EditorState :=
  if s.history.length ≤ 1 then s else renderCanvas draw (handleUndo s)

/-- A user gesture of the editor session. -/
inductive SessionOp where
  | load : SessionOp
  | rotate : Bool → SessionOp
  | scaleTo : Nat → SessionOp
  | click : Int → Int → SessionOp
  | undo : SessionOp

/-- The quiescent-state transition of one gesture: the handler plus every
effect re-run its state updates trigger. -/
def applyOp (draw : Nat → Nat → ImageData) : SessionOp → EditorState → EditorState
  | SessionOp.load, s => loadImage draw s
  | SessionOp.rotate cw, s => handleRotate draw cw s
  | SessionOp.scaleTo v, s => handleScaleChange draw v s
  | SessionOp.click x y, s => clickOp draw s x y
  | SessionOp.undo, s => undoOp draw s

/-- A session at rest between gestures: the canvas shows the rendering of the
current rotation and scale, the history is seeded, and every history snapshot
equals the canvas.  Every gesture leaves the session in such a state, since
each history change triggers a full redraw. -/
def quiescent (draw : Nat → Nat → ImageData) (s : EditorState) : Prop :=
  s.canvas = draw s.rotation s.scale ∧ s.history ≠ [] ∧ ∀ b ∈ s.history, b = s.canvas

/-- Drawing stand-in that always renders the 2-by-1 bitmap. -/
def exDraw21 : Nat → Nat → ImageData := fun _ _ => exBase21

/-! ## Basic facts about the embedding -/

theorem readByte_natCast (d : List Nat) (n : Nat) : readByte d (n : Int) = d[n]? := by
  unfold readByte
  rw [if_pos (Int.natCast_nonneg n)]
  simp

/-- The early return of `floodFill` (line 115): when the byte read at the seed
alpha index is literally `0`, only the history push has happened. -/
theorem floodFill_early (s : EditorState) (startX startY : Int)
    (h : readByte s.canvas.data ((startY * (s.canvas.width : Int) + startX) * 4 + 3) = some 0) :
    floodFill s startX startY = { s with history := s.history ++ [s.canvas] } := by
  unfold floodFill
  rw [if_pos h]

/-- A single out-of-bounds work item is popped and discarded, ending the loop. -/
theorem fillLoop_oob (w h : Nat) (tR tG tB : Option Nat) (tol : Nat) (fuel : Nat)
    (d : List Nat) (v : Finset Nat) (x y : Int)
    (hoob : x < 0 ∨ (w : Int) ≤ x ∨ y < 0 ∨ (h : Int) ≤ y) :
    fillLoop w h tR tG tB tol (fuel + 1) ⟨d, v, [(x, y)]⟩ = some ⟨d, v, []⟩ := by
  rw [fillLoop, if_pos hoob, fillLoop]

/-! ## C3 -/

/-- Claim C3 counterexample: clicking a seed whose pixel is already transparent is
claimed to push no history entry, but the code appends the snapshot before the
early return, so the history does change. -/
theorem fill_transparent_seed_pushes_history :
    ¬ ((floodFill ⟨0, 100, [exBufT], exBufT, true, 30⟩ 0 0).canvas = exBufT ∧
       (floodFill ⟨0, 100, [exBufT], exBufT, true, 30⟩ 0 0).history = [exBufT]) := by
  decide

/-- Claim C3 (amended): for an in-bounds seed whose alpha byte is 0, the fill leaves
every byte of the buffer unchanged and computes an empty fill region (zero
pixels affected), but it does push exactly one new history entry, equal to the
buffer before the call. -/
theorem fill_transparent_seed_noop_but_push (s : EditorState) (sx sy : Nat)
    (hx : sx < s.canvas.width) (hy : sy < s.canvas.height)
    (ha : s.canvas.data[(sy * s.canvas.width + sx) * 4 + 3]? = some 0) :
    (floodFill s sx sy).canvas = s.canvas ∧
    (floodFill s sx sy).history = s.history ++ [s.canvas] ∧
    fillRegion s.canvas sx sy s.tolerance = ∅ := by
  have hcast : ((sy : Int) * (s.canvas.width : Int) + (sx : Int)) * 4 + 3 =
      (((sy * s.canvas.width + sx) * 4 + 3 : Nat) : Int) := by push_cast; ring
  have hread : readByte s.canvas.data (((sy : Int) * (s.canvas.width : Int) + (sx : Int)) * 4 + 3) = some 0 := by
    rw [hcast, readByte_natCast]; exact ha
  refine ⟨?_, ?_, ?_⟩
  · rw [floodFill_early s sx sy hread]
  · rw [floodFill_early s sx sy hread]
  · unfold fillRegion
    rw [if_pos hread]

/-- Witness for C3: a concrete transparent 1-pixel session. -/
theorem fill_transparent_seed_noop_but_push_witness :
    (floodFill ⟨0, 100, [exBufT], exBufT, true, 30⟩ 0 0).canvas = exBufT ∧
    (floodFill ⟨0, 100, [exBufT], exBufT, true, 30⟩ 0 0).history = [exBufT, exBufT] ∧
    fillRegion exBufT 0 0 30 = ∅ := by
  have := fill_transparent_seed_noop_but_push ⟨0, 100, [exBufT], exBufT, true, 30⟩ 0 0
    (by decide) (by decide) (by decide)
  exact ⟨this.1, this.2.1, this.2.2⟩

/-! ## C6 -/

set_option maxRecDepth 100000 in
/-- Claim C6 counterexample: a 25 by 40 source at rotation 0 and scale 50 yields
canvas dimensions (12, 20) by truncation, while the claimed round-half-up
policy would give (13, 20). -/
theorem renderDims_not_round_half_up :
    renderDims 25 40 0 50 ≠ (roundHalfUp (25 * 50) 100, roundHalfUp (40 * 50) 100) := by
  decide

set_option maxRecDepth 100000 in
theorem renderDims_at_90_70 : renderDims 90 90 0 70 = (62, 62) := by
  decide

/-- Claim C6 (amended): for every source size, rotation in {0,90,180,270} and
scale in [30,200], each output dimension is the WebIDL truncation of the
binary64 product of the source length with the binary64 quotient scale/100,
and the two dimensions are exactly swapped when the rotation is 90 or 270.
The policy is truncation of the floating-point product - not round half up,
and not even the exact floor: at a 90-pixel axis and scale 70 the double
product is just below 63, so the code yields 62 where exact arithmetic floors
90*70/100 to 63. -/
theorem renderDims_truncates_floats (imgW imgH rot scale : Nat)
    (hrot : rot = 0 ∨ rot = 90 ∨ rot = 180 ∨ rot = 270)
    (hlo : 30 ≤ scale) (hhi : scale ≤ 200) :
    (renderDims imgW imgH rot scale =
      if rot = 90 ∨ rot = 270 then (jsScaledDim imgH scale, jsScaledDim imgW scale)
      else (jsScaledDim imgW scale, jsScaledDim imgH scale)) ∧
    renderDims 90 90 0 70 = (62, 62) ∧ 90 * 70 / 100 = 63 := by
  refine ⟨?_, ?_, ?_⟩
  · unfold renderDims jsScaledDim
    rcases hrot with rfl | rfl | rfl | rfl <;> simp
  · exact renderDims_at_90_70
  · rfl

/-- Witness for C6: the spec end-to-end example, a 200 by 260 source at
rotation 90 and scale 100. -/
theorem renderDims_truncates_floats_witness :
    renderDims 200 260 90 100 = (jsScaledDim 260 100, jsScaledDim 200 100) := by
  have h := (renderDims_truncates_floats 200 260 90 100 (by decide) (by decide) (by decide)).1
  simpa using h

/-! ## C7 -/

/-- Claim C7: changing rotation (either direction) or scale discards the history and
re-seeds it with exactly one entry, the newly rendered baseline, and an
immediately following undo is a no-op (so pixels erased before the geometry
change cannot be recovered).  Stated for any drawing function and any session
state with at least one edit recorded. -/
theorem rotate_scale_clear_history (draw : Nat → Nat → ImageData) (s : EditorState)
    (hedits : 2 ≤ s.history.length) :
    (∀ cw : Bool,
      (handleRotate draw cw s).history =
        [draw (if cw then (s.rotation + 90) % 360 else (s.rotation + 270) % 360) s.scale] ∧
      handleUndo (handleRotate draw cw s) = handleRotate draw cw s) ∧
    (∀ v : Nat,
      (handleScaleChange draw v s).history = [draw s.rotation v] ∧
      handleUndo (handleScaleChange draw v s) = handleScaleChange draw v s) := by
  constructor
  · intro cw
    constructor
    · rfl
    · unfold handleUndo handleRotate renderCanvas
      simp
  · intro v
    constructor
    · rfl
    · unfold handleUndo handleScaleChange renderCanvas
      simp

/-- Witness for C7: concrete session with two history entries. -/
theorem rotate_scale_clear_history_witness :
    (handleRotate exDraw true ⟨0, 100, [exBase21, exBuf1], exBuf1, false, 30⟩).history =
      [exDraw 90 100] ∧
    handleUndo (handleRotate exDraw true ⟨0, 100, [exBase21, exBuf1], exBuf1, false, 30⟩) =
      handleRotate exDraw true ⟨0, 100, [exBase21, exBuf1], exBuf1, false, 30⟩ := by
  have := rotate_scale_clear_history exDraw ⟨0, 100, [exBase21, exBuf1], exBuf1, false, 30⟩
    (by decide)
  exact ⟨(this.1 true).1, (this.1 true).2⟩

/-! ## C8 -/

/-- Claim C8: with at most one history entry, `handleUndo` returns the state
unchanged (buffer and history intact, no error is possible), and doing so twice
in a row still returns the state unchanged. -/
theorem undo_baseline_noop (s : EditorState) (hlen : s.history.length ≤ 1) :
    handleUndo s = s ∧ handleUndo (handleUndo s) = s := by
  have h1 : handleUndo s = s := by
    unfold handleUndo
    rw [if_pos hlen]
  exact ⟨h1, by rw [h1, h1]⟩

/-- Witness for C8: a session holding only the baseline. -/
theorem undo_baseline_noop_witness :
    handleUndo ⟨0, 100, [exBuf1], exBuf1, false, 30⟩ = ⟨0, 100, [exBuf1], exBuf1, false, 30⟩ ∧
    handleUndo (handleUndo ⟨0, 100, [exBuf1], exBuf1, false, 30⟩) =
      ⟨0, 100, [exBuf1], exBuf1, false, 30⟩ :=
  undo_baseline_noop ⟨0, 100, [exBuf1], exBuf1, false, 30⟩ (by decide)

/-! ## C9 -/

/-- Claim C9 counterexample: a seed outside the buffer bounds is claimed to be
rejected with buffer and history unchanged, but the code pushes a history
snapshot before doing anything else, so the history changes. -/
theorem fill_oob_seed_pushes_history :
    ¬ ((floodFill ⟨0, 100, [exBuf1], exBuf1, true, 30⟩ 5 0).canvas = exBuf1 ∧
       (floodFill ⟨0, 100, [exBuf1], exBuf1, true, 30⟩ 5 0).history = [exBuf1]) := by
  decide

/-- Claim C9 (amended): for a seed outside the buffer bounds the call mutates no
byte of the pixel buffer (the work loop discards the seed at its bounds
check), raises no error, but does append one history snapshot equal to the
pre-call buffer; there is no InvalidArgument rejection in the code. -/
theorem fill_oob_seed_no_mutation (s : EditorState) (sx sy : Int)
    (hoob : sx < 0 ∨ (s.canvas.width : Int) ≤ sx ∨ sy < 0 ∨ (s.canvas.height : Int) ≤ sy) :
    (floodFill s sx sy).canvas = s.canvas ∧
    (floodFill s sx sy).history = s.history ++ [s.canvas] := by
  unfold floodFill
  by_cases hz : readByte s.canvas.data ((sy * (s.canvas.width : Int) + sx) * 4 + 3) = some 0
  · rw [if_pos hz]
    exact ⟨rfl, rfl⟩
  · rw [if_neg hz, fillLoop_oob _ _ _ _ _ _ _ _ _ _ _ hoob]
    exact ⟨rfl, rfl⟩

/-- Witness for C9: seed (5,0) on a 1-pixel canvas. -/
theorem fill_oob_seed_no_mutation_witness :
    (floodFill ⟨0, 100, [exBuf1], exBuf1, true, 30⟩ 5 0).canvas = exBuf1 ∧
    (floodFill ⟨0, 100, [exBuf1], exBuf1, true, 30⟩ 5 0).history = [exBuf1, exBuf1] :=
  fill_oob_seed_no_mutation ⟨0, 100, [exBuf1], exBuf1, true, 30⟩ 5 0 (by decide)

theorem enc_mod (a b w : Nat) (ha : a < w) : (b * w + a) % w = a := by
  rw [mul_comm, Nat.mul_add_mod, Nat.mod_eq_of_lt ha]

theorem enc_div (a b w : Nat) (ha : a < w) : (b * w + a) / w = b := by
  rw [mul_comm, Nat.mul_add_div (by omega : 0 < w), Nat.div_eq_of_lt ha, Nat.add_zero]

theorem enc_lt (a b w h : Nat) (ha : a < w) (hb : b < h) : b * w + a < w * h := by
  calc b * w + a < b * w + w := by omega
  _ = (b + 1) * w := by ring
  _ ≤ h * w := Nat.mul_le_mul_right w hb
  _ = w * h := mul_comm h w

theorem matchesB_natCast (d : List Nat) (tR tG tB : Option Nat) (tol : Nat) (p : Nat) :
    matchesB d tR tG tB tol ((p : Int) * 4) = matchesN d tR tG tB tol p := by
  unfold matchesB matchesN
  rw [show ((p : Int) * 4) = ((p * 4 : Nat) : Int) by push_cast; ring]
  rw [show (((p * 4 : Nat) : Int) + 1) = ((p * 4 + 1 : Nat) : Int) by push_cast; ring]
  rw [show (((p * 4 : Nat) : Int) + 2) = ((p * 4 + 2 : Nat) : Int) by push_cast; ring]
  rw [show (((p * 4 : Nat) : Int) + 3) = ((p * 4 + 3 : Nat) : Int) by push_cast; ring]
  rw [readByte_natCast, readByte_natCast, readByte_natCast, readByte_natCast]

theorem pixOk_eq_matchesN (d : List Nat) (tR tG tB : Option Nat) (tol w : Nat) (c : Nat × Nat) :
    pixOk d tR tG tB tol w c = matchesN d tR tG tB tol (c.2 * w + c.1) := by
  unfold pixOk
  exact matchesB_natCast d tR tG tB tol (c.2 * w + c.1)

-- eraseInv lemmas
theorem eraseInv_refl (d0 : List Nat) : eraseInv d0 d0 ∅ := by
  refine ⟨rfl, fun i => ?_⟩
  simp

theorem eraseInv_rgb (d0 d : List Nat) (v : Finset Nat) (hinv : eraseInv d0 d v)
    (p j : Nat) (hj : j < 3) : d[p * 4 + j]? = d0[p * 4 + j]? := by
  have := hinv.2 (p * 4 + j)
  rw [if_neg] at this
  · exact this
  · rintro ⟨h3, -⟩
    rw [mul_comm, Nat.mul_add_mod] at h3
    omega

theorem eraseInv_alpha_unvisited (d0 d : List Nat) (v : Finset Nat) (hinv : eraseInv d0 d v)
    (p : Nat) (hp : p ∉ v) : d[p * 4 + 3]? = d0[p * 4 + 3]? := by
  have := hinv.2 (p * 4 + 3)
  rw [if_neg] at this
  · exact this
  · rintro ⟨-, hmem⟩
    rw [mul_comm, Nat.mul_add_div (by omega : 0 < 4)] at hmem
    simp at hmem
    exact hp hmem

theorem eraseInv_alpha_visited (d0 d : List Nat) (v : Finset Nat) (hinv : eraseInv d0 d v)
    (p : Nat) (hp : p ∈ v) : d[p * 4 + 3]? = (d0[p * 4 + 3]?).map (fun _ => 0) := by
  have := hinv.2 (p * 4 + 3)
  rw [if_pos] at this
  · exact this
  · constructor
    · rw [mul_comm, Nat.mul_add_mod]
    · rw [mul_comm, Nat.mul_add_div (by omega : 0 < 4)]
      simpa using hp

theorem matchesN_unvisited (d0 d : List Nat) (v : Finset Nat) (tR tG tB : Option Nat) (tol : Nat)
    (hinv : eraseInv d0 d v) (p : Nat) (hp : p ∉ v) :
    matchesN d tR tG tB tol p = matchesN d0 tR tG tB tol p := by
  have h0 : d[p * 4]? = d0[p * 4]? := by
    have := eraseInv_rgb d0 d v hinv p 0 (by omega)
    simpa using this
  unfold matchesN
  rw [h0]
  rw [eraseInv_rgb d0 d v hinv p 1 (by omega), eraseInv_rgb d0 d v hinv p 2 (by omega)]
  rw [eraseInv_alpha_unvisited d0 d v hinv p hp]

theorem matchesN_alpha (d : List Nat) (tR tG tB : Option Nat) (tol : Nat) (p : Nat)
    (hm : matchesN d tR tG tB tol p = true) :
    ∃ a, d[p * 4 + 3]? = some a ∧ 0 < a := by
  unfold matchesN at hm
  simp only [Bool.and_eq_true] at hm
  rcases hm with ⟨-, hm⟩
  revert hm
  match he : d[p * 4 + 3]? with
  | some a => intro hm; exact ⟨a, rfl, by simpa using hm⟩
  | none => intro hm; simp at hm

theorem eraseInv_set (d0 d : List Nat) (v : Finset Nat) (hinv : eraseInv d0 d v)
    (p : Nat) (hlen : p * 4 + 3 < d.length) :
    eraseInv d0 (d.set (p * 4 + 3) 0) (insert p v) := by
  refine ⟨by rw [List.length_set]; exact hinv.1, fun i => ?_⟩
  by_cases hi : i = p * 4 + 3
  · subst hi
    have hlen0 : p * 4 + 3 < d0.length := by
      have h1 := hinv.1
      omega
    rw [List.getElem?_set_self hlen, if_pos]
    · rw [List.getElem?_eq_getElem hlen0]
      rfl
    · refine ⟨by rw [mul_comm, Nat.mul_add_mod], ?_⟩
      rw [mul_comm, Nat.mul_add_div (by omega : 0 < 4)]
      simp
  · rw [List.getElem?_set_ne (fun hcontra => hi hcontra.symm)]
    rw [hinv.2 i]
    by_cases hc : i % 4 = 3 ∧ i / 4 ∈ v
    · rw [if_pos hc, if_pos ⟨hc.1, Finset.mem_insert_of_mem hc.2⟩]
    · rw [if_neg hc, if_neg]
      rintro ⟨h3, hmem⟩
      rcases Finset.mem_insert.mp hmem with hip | hiv
      · apply hi
        omega
      · exact hc ⟨h3, hiv⟩

theorem fillInv_oob (w h : Nat) (d0 : List Nat) (tR tG tB : Option Nat) (tol : Nat)
    (seed : Nat × Nat) (hsx : seed.1 < w) (hsy : seed.2 < h)
    (d : List Nat) (v : Finset Nat) (x y : Int) (rest : List (Int × Int))
    (inv : FillInv w h d0 tR tG tB tol seed ⟨d, v, (x, y) :: rest⟩)
    (hoob : x < 0 ∨ (w : Int) ≤ x ∨ y < 0 ∨ (h : Int) ≤ y) :
    FillInv w h d0 tR tG tB tol seed ⟨d, v, rest⟩ := by
  refine ⟨inv.vRange, inv.vOk, inv.vReach, inv.dataInv, ?_, ?_, ?_⟩
  · intro xy hxy c hc hc1 hc2 hok
    exact inv.stackSound xy (List.mem_cons_of_mem _ hxy) c hc hc1 hc2 hok
  · intro p hp q hadj hq1 hq2 hok
    rcases inv.closure p hp q hadj hq1 hq2 hok with hmem | hstk
    · exact Or.inl hmem
    · rcases List.mem_cons.mp hstk with heq | hrest
      · exfalso
        simp only [Prod.mk.injEq] at heq
        obtain ⟨h1, h2⟩ := heq
        omega
      · exact Or.inr hrest
  · rcases inv.seedIn with hv | hstk
    · exact Or.inl hv
    · rcases List.mem_cons.mp hstk with heq | hrest
      · exfalso
        simp only [Prod.mk.injEq] at heq
        obtain ⟨h1, h2⟩ := heq
        omega
      · exact Or.inr hrest

theorem fillInv_visited (w h : Nat) (d0 : List Nat) (tR tG tB : Option Nat) (tol : Nat)
    (seed : Nat × Nat)
    (d : List Nat) (v : Finset Nat) (x y : Int) (rest : List (Int × Int))
    (inv : FillInv w h d0 tR tG tB tol seed ⟨d, v, (x, y) :: rest⟩)
    (hin : ¬ (x < 0 ∨ (w : Int) ≤ x ∨ y < 0 ∨ (h : Int) ≤ y))
    (hv : (y * w + x).toNat ∈ v) :
    FillInv w h d0 tR tG tB tol seed ⟨d, v, rest⟩ := by
  push_neg at hin
  obtain ⟨hx0, hxw, hy0, hyh⟩ := hin
  refine ⟨inv.vRange, inv.vOk, inv.vReach, inv.dataInv, ?_, ?_, ?_⟩
  · intro xy hxy c hc hc1 hc2 hok
    exact inv.stackSound xy (List.mem_cons_of_mem _ hxy) c hc hc1 hc2 hok
  · intro p hp q hadj hq1 hq2 hok
    rcases inv.closure p hp q hadj hq1 hq2 hok with hmem | hstk
    · exact Or.inl hmem
    · rcases List.mem_cons.mp hstk with heq | hrest
      · simp only [Prod.mk.injEq] at heq
        obtain ⟨h1, h2⟩ := heq
        left
        have hxy2 : (y * (w : Int) + x) = ((q.2 * w + q.1 : Nat) : Int) := by
          rw [← h1, ← h2]
          push_cast
          ring
        rw [hxy2, Int.toNat_natCast] at hv
        exact hv
      · exact Or.inr hrest
  · rcases inv.seedIn with hsv | hstk
    · exact Or.inl hsv
    · rcases List.mem_cons.mp hstk with heq | hrest
      · simp only [Prod.mk.injEq] at heq
        obtain ⟨h1, h2⟩ := heq
        left
        have hxy2 : (y * (w : Int) + x) = ((seed.2 * w + seed.1 : Nat) : Int) := by
          rw [← h1, ← h2]
          push_cast
          ring
        rw [hxy2, Int.toNat_natCast] at hv
        exact hv
      · exact Or.inr hrest

theorem fillInv_nomatch (w h : Nat) (d0 : List Nat) (tR tG tB : Option Nat) (tol : Nat)
    (seed : Nat × Nat) (hsok : pixOk d0 tR tG tB tol w seed = true)
    (d : List Nat) (v : Finset Nat) (x y : Int) (rest : List (Int × Int))
    (inv : FillInv w h d0 tR tG tB tol seed ⟨d, v, (x, y) :: rest⟩)
    (hin : ¬ (x < 0 ∨ (w : Int) ≤ x ∨ y < 0 ∨ (h : Int) ≤ y))
    (hnv : (y * w + x).toNat ∉ v)
    (hm : matchesB d tR tG tB tol ((y * w + x) * 4) = false) :
    FillInv w h d0 tR tG tB tol seed ⟨d, v, rest⟩ := by
  push_neg at hin
  obtain ⟨hx0, hxw, hy0, hyh⟩ := hin
  have key : ∀ c : Nat × Nat, ((c.1 : Int), (c.2 : Int)) = (x, y) →
      pixOk d0 tR tG tB tol w c = true → False := by
    intro c heq hok
    simp only [Prod.mk.injEq] at heq
    obtain ⟨h1, h2⟩ := heq
    have hxy2 : (y * (w : Int) + x) = ((c.2 * w + c.1 : Nat) : Int) := by
      rw [← h1, ← h2]
      push_cast
      ring
    have hnv2 : (c.2 * w + c.1) ∉ v := by
      rw [hxy2, Int.toNat_natCast] at hnv
      exact hnv
    have hmc : matchesN d tR tG tB tol (c.2 * w + c.1) = false := by
      rw [← matchesB_natCast]
      rw [show (((c.2 * w + c.1 : Nat) : Int) * 4) = (y * (w : Int) + x) * 4 by rw [hxy2]]
      exact hm
    rw [matchesN_unvisited d0 d v tR tG tB tol inv.dataInv _ hnv2] at hmc
    rw [pixOk_eq_matchesN] at hok
    rw [hok] at hmc
    exact Bool.true_eq_false.mp hmc
  refine ⟨inv.vRange, inv.vOk, inv.vReach, inv.dataInv, ?_, ?_, ?_⟩
  · intro xy hxy c hc hc1 hc2 hok
    exact inv.stackSound xy (List.mem_cons_of_mem _ hxy) c hc hc1 hc2 hok
  · intro p hp q hadj hq1 hq2 hok
    rcases inv.closure p hp q hadj hq1 hq2 hok with hmem | hstk
    · exact Or.inl hmem
    · rcases List.mem_cons.mp hstk with heq | hrest
      · exact absurd hok (fun ho => key q heq ho)
      · exact Or.inr hrest
  · rcases inv.seedIn with hsv | hstk
    · exact Or.inl hsv
    · rcases List.mem_cons.mp hstk with heq | hrest
      · exact absurd hsok (fun ho => key seed heq ho)
      · exact Or.inr hrest

theorem fillInv_visit (w h : Nat) (d0 : List Nat) (tR tG tB : Option Nat) (tol : Nat)
    (seed : Nat × Nat)
    (d : List Nat) (v : Finset Nat) (x y : Int) (rest : List (Int × Int))
    (inv : FillInv w h d0 tR tG tB tol seed ⟨d, v, (x, y) :: rest⟩)
    (hin : ¬ (x < 0 ∨ (w : Int) ≤ x ∨ y < 0 ∨ (h : Int) ≤ y))
    (hnv : (y * w + x).toNat ∉ v)
    (hm : matchesB d tR tG tB tol ((y * w + x) * 4) = true) :
    FillInv w h d0 tR tG tB tol seed
      ⟨d.set ((y * w + x) * 4 + 3).toNat 0, insert (y * w + x).toNat v,
       (x, y - 1) :: (x, y + 1) :: (x - 1, y) :: (x + 1, y) :: rest⟩ := by
  push_neg at hin
  obtain ⟨hx0, hxw, hy0, hyh⟩ := hin
  set c : Nat × Nat := (x.toNat, y.toNat) with hcdef
  have hcx : (c.1 : Int) = x := Int.toNat_of_nonneg hx0
  have hcy : (c.2 : Int) = y := Int.toNat_of_nonneg hy0
  have hc1 : c.1 < w := by omega
  have hc2 : c.2 < h := by omega
  have hpos : (y * (w : Int) + x) = ((c.2 * w + c.1 : Nat) : Int) := by
    rw [← hcx, ← hcy]
    push_cast
    ring
  have hposn : (y * (w : Int) + x).toNat = c.2 * w + c.1 := by
    rw [hpos, Int.toNat_natCast]
  have hnv2 : (c.2 * w + c.1) ∉ v := by rwa [hposn] at hnv
  have hmN : matchesN d tR tG tB tol (c.2 * w + c.1) = true := by
    rw [← matchesB_natCast]
    rw [show (((c.2 * w + c.1 : Nat) : Int) * 4) = (y * (w : Int) + x) * 4 by rw [hpos]]
    exact hm
  have hok0 : matchesN d0 tR tG tB tol (c.2 * w + c.1) = true := by
    rw [← matchesN_unvisited d0 d v tR tG tB tol inv.dataInv _ hnv2]
    exact hmN
  have hpixc : pixOk d0 tR tG tB tol w c = true := by
    rw [pixOk_eq_matchesN]
    exact hok0
  have hreachc : Reaches w h (pixOk d0 tR tG tB tol w) seed c :=
    inv.stackSound (x, y) (List.mem_cons_self _ _) c (by rw [hcx, hcy]) hc1 hc2 hpixc
  have hposlt : c.2 * w + c.1 < w * h := enc_lt c.1 c.2 w h hc1 hc2
  have hsetIdx : ((y * (w : Int) + x) * 4 + 3).toNat = (c.2 * w + c.1) * 4 + 3 := by
    rw [hpos]
    rw [show (((c.2 * w + c.1 : Nat) : Int) * 4 + 3) = (((c.2 * w + c.1) * 4 + 3 : Nat) : Int) by
      push_cast; ring]
    rw [Int.toNat_natCast]
  have hlen : (c.2 * w + c.1) * 4 + 3 < d.length := by
    rcases matchesN_alpha d tR tG tB tol _ hmN with ⟨a, hga, -⟩
    exact (List.getElem?_eq_some.mp hga).1
  have hdec1 : (c.2 * w + c.1) % w = c.1 := enc_mod c.1 c.2 w hc1
  have hdec2 : (c.2 * w + c.1) / w = c.2 := enc_div c.1 c.2 w hc1
  have hdecode : ((c.2 * w + c.1) % w, (c.2 * w + c.1) / w) = c := by
    rw [hdec1, hdec2]
  -- the pushed neighbour pairs, as facts about membership in the new stack
  have memN : ∀ z ∈ ([(x, y - 1), (x, y + 1), (x - 1, y), (x + 1, y)] : List (Int × Int)),
      z ∈ ((x, y - 1) :: (x, y + 1) :: (x - 1, y) :: (x + 1, y) :: rest) := by
    intro z hz
    rcases List.mem_cons.mp hz with rfl | hz
    · exact List.mem_cons_self _ _
    rcases List.mem_cons.mp hz with rfl | hz
    · exact List.mem_cons_of_mem _ (List.mem_cons_self _ _)
    rcases List.mem_cons.mp hz with rfl | hz
    · exact List.mem_cons_of_mem _ (List.mem_cons_of_mem _ (List.mem_cons_self _ _))
    rcases List.mem_cons.mp hz with rfl | hz
    · exact List.mem_cons_of_mem _ (List.mem_cons_of_mem _ (List.mem_cons_of_mem _
        (List.mem_cons_self _ _)))
    · exact absurd hz (List.not_mem_nil z)
  have memRest : ∀ z ∈ rest, z ∈ ((x, y - 1) :: (x, y + 1) :: (x - 1, y) :: (x + 1, y) :: rest) :=
    fun z hz => List.mem_cons_of_mem _ (List.mem_cons_of_mem _ (List.mem_cons_of_mem _
      (List.mem_cons_of_mem _ hz)))
  refine ⟨?_, ?_, ?_, ?_, ?_, ?_, ?_⟩
  · -- vRange
    intro p hp
    rcases Finset.mem_insert.mp hp with rfl | hp
    · rw [hposn]
      exact hposlt
    · exact inv.vRange p hp
  · -- vOk
    intro p hp
    rcases Finset.mem_insert.mp hp with rfl | hp
    · rw [hposn]
      exact hok0
    · exact inv.vOk p hp
  · -- vReach
    intro p hp
    rcases Finset.mem_insert.mp hp with rfl | hp
    · rw [hposn, hdecode]
      exact hreachc
    · exact inv.vReach p hp
  · -- dataInv
    show eraseInv d0 (d.set ((y * (w : Int) + x) * 4 + 3).toNat 0) (insert (y * (w : Int) + x).toNat v)
    rw [hsetIdx, hposn]
    exact eraseInv_set d0 d v inv.dataInv _ hlen
  · -- stackSound
    intro xy hxy c' hc' h1 h2 hok
    rcases List.mem_cons.mp hxy with rfl | hxy
    · -- (x, y - 1)
      simp only [Prod.mk.injEq] at hc'
      obtain ⟨e1, e2⟩ := hc'
      have hadj : adjPix c c' := by
        right; right; right
        constructor
        · omega
        · omega
      exact Reaches.step hreachc hadj h1 h2 hok
    rcases List.mem_cons.mp hxy with rfl | hxy
    · -- (x, y + 1)
      simp only [Prod.mk.injEq] at hc'
      obtain ⟨e1, e2⟩ := hc'
      have hadj : adjPix c c' := by
        right; right; left
        constructor
        · omega
        · omega
      exact Reaches.step hreachc hadj h1 h2 hok
    rcases List.mem_cons.mp hxy with rfl | hxy
    · -- (x - 1, y)
      simp only [Prod.mk.injEq] at hc'
      obtain ⟨e1, e2⟩ := hc'
      have hadj : adjPix c c' := by
        right; left
        constructor
        · omega
        · omega
      exact Reaches.step hreachc hadj h1 h2 hok
    rcases List.mem_cons.mp hxy with rfl | hxy
    · -- (x + 1, y)
      simp only [Prod.mk.injEq] at hc'
      obtain ⟨e1, e2⟩ := hc'
      have hadj : adjPix c c' := by
        left
        constructor
        · omega
        · omega
      exact Reaches.step hreachc hadj h1 h2 hok
    · exact inv.stackSound xy (List.mem_cons_of_mem _ hxy) c' hc' h1 h2 hok
  · -- closure
    intro p hp q hadj hq1 hq2 hok
    rcases Finset.mem_insert.mp hp with rfl | hp
    · -- p is the newly visited pixel
      rw [hposn, hdecode] at hadj
      rcases hadj with ⟨e1, e2⟩ | ⟨e1, e2⟩ | ⟨e1, e2⟩ | ⟨e1, e2⟩
      · -- q right of c
        refine Or.inr ?_
        have : ((q.1 : Int), (q.2 : Int)) = (x + 1, y) := by
          simp only [Prod.mk.injEq]
          omega
        rw [this]
        exact memN _ (by simp)
      · -- q left of c
        refine Or.inr ?_
        have : ((q.1 : Int), (q.2 : Int)) = (x - 1, y) := by
          simp only [Prod.mk.injEq]
          omega
        rw [this]
        exact memN _ (by simp)
      · -- q below c
        refine Or.inr ?_
        have : ((q.1 : Int), (q.2 : Int)) = (x, y + 1) := by
          simp only [Prod.mk.injEq]
          omega
        rw [this]
        exact memN _ (by simp)
      · -- q above c
        refine Or.inr ?_
        have : ((q.1 : Int), (q.2 : Int)) = (x, y - 1) := by
          simp only [Prod.mk.injEq]
          omega
        rw [this]
        exact memN _ (by simp)
    · rcases inv.closure p hp q hadj hq1 hq2 hok with hmem | hstk
      · exact Or.inl (Finset.mem_insert_of_mem hmem)
      · rcases List.mem_cons.mp hstk with heq | hrest
        · left
          simp only [Prod.mk.injEq] at heq
          obtain ⟨e1, e2⟩ := heq
          have hq : (y * (w : Int) + x) = ((q.2 * w + q.1 : Nat) : Int) := by
            rw [← e1, ← e2]
            push_cast
            ring
          have : q.2 * w + q.1 = (y * (w : Int) + x).toNat := by
            rw [hq, Int.toNat_natCast]
          rw [this]
          exact Finset.mem_insert_self _ _
        · exact Or.inr (memRest _ hrest)
  · -- seedIn
    rcases inv.seedIn with hsv | hstk
    · exact Or.inl (Finset.mem_insert_of_mem hsv)
    · rcases List.mem_cons.mp hstk with heq | hrest
      · left
        simp only [Prod.mk.injEq] at heq
        obtain ⟨e1, e2⟩ := heq
        have hq : (y * (w : Int) + x) = ((seed.2 * w + seed.1 : Nat) : Int) := by
          rw [← e1, ← e2]
          push_cast
          ring
        have : seed.2 * w + seed.1 = (y * (w : Int) + x).toNat := by
          rw [hq, Int.toNat_natCast]
        rw [this]
        exact Finset.mem_insert_self _ _
      · exact Or.inr (memRest _ hrest)

theorem fillLoop_inv (w h : Nat) (d0 : List Nat) (tR tG tB : Option Nat) (tol : Nat)
    (seed : Nat × Nat) (hsx : seed.1 < w) (hsy : seed.2 < h)
    (hsok : pixOk d0 tR tG tB tol w seed = true) :
    ∀ fuel : Nat, ∀ d : List Nat, ∀ v : Finset Nat, ∀ stk : List (Int × Int),
      FillInv w h d0 tR tG tB tol seed ⟨d, v, stk⟩ →
      4 * (w * h - v.card) + stk.length ≤ fuel →
      ∃ dF vF, fillLoop w h tR tG tB tol fuel ⟨d, v, stk⟩ = some ⟨dF, vF, []⟩ ∧
        FillInv w h d0 tR tG tB tol seed ⟨dF, vF, []⟩ := by
  intro fuel
  induction fuel with
  | zero =>
    intro d v stk hinv hfuel
    cases stk with
    | nil => exact ⟨d, v, by rw [fillLoop], hinv⟩
    | cons a l =>
      exfalso
      simp only [List.length_cons] at hfuel
      omega
  | succ fuel ih =>
    intro d v stk hinv hfuel
    cases stk with
    | nil => exact ⟨d, v, by rw [fillLoop], hinv⟩
    | cons xy rest =>
      obtain ⟨x, y⟩ := xy
      simp only [List.length_cons] at hfuel
      rw [fillLoop]
      by_cases hoob : x < 0 ∨ (w : Int) ≤ x ∨ y < 0 ∨ (h : Int) ≤ y
      · rw [if_pos hoob]
        exact ih d v rest (fillInv_oob w h d0 tR tG tB tol seed hsx hsy d v x y rest hinv hoob)
          (by omega)
      · rw [if_neg hoob]
        by_cases hv : (y * w + x).toNat ∈ v
        · rw [if_pos hv]
          exact ih d v rest (fillInv_visited w h d0 tR tG tB tol seed d v x y rest hinv hoob hv)
            (by omega)
        · rw [if_neg hv]
          by_cases hm : matchesB d tR tG tB tol ((y * w + x) * 4) = true
          · rw [if_pos hm]
            have hinv2 := fillInv_visit w h d0 tR tG tB tol seed d v x y rest hinv hoob hv hm
            have hcard : (insert ((y * w + x)).toNat v).card = v.card + 1 :=
              Finset.card_insert_of_not_mem hv
            have hsub : insert ((y * w + x)).toNat v ⊆ Finset.range (w * h) := by
              intro p hp
              rw [Finset.mem_range]
              exact hinv2.vRange p hp
            have hle : (insert ((y * w + x)).toNat v).card ≤ w * h := by
              have := Finset.card_le_card hsub
              rwa [Finset.card_range] at this
            apply ih _ _ _ hinv2
            simp only [List.length_cons]
            omega
          · rw [if_neg hm]
            exact ih d v rest
              (fillInv_nomatch w h d0 tR tG tB tol seed hsok d v x y rest hinv hoob hv
                (by revert hm; cases matchesB d tR tG tB tol ((y * w + x) * 4) <;> simp))
              (by omega)

theorem fillLoop_isSome (w h : Nat) (tR tG tB : Option Nat) (tol : Nat) :
    ∀ fuel : Nat, ∀ d : List Nat, ∀ v : Finset Nat, ∀ stk : List (Int × Int),
      (∀ p ∈ v, p < w * h) →
      4 * (w * h - v.card) + stk.length ≤ fuel →
      (fillLoop w h tR tG tB tol fuel ⟨d, v, stk⟩).isSome = true := by
  intro fuel
  induction fuel with
  | zero =>
    intro d v stk hrange hfuel
    cases stk with
    | nil => rw [fillLoop]; rfl
    | cons a l =>
      exfalso
      simp only [List.length_cons] at hfuel
      omega
  | succ fuel ih =>
    intro d v stk hrange hfuel
    cases stk with
    | nil => rw [fillLoop]; rfl
    | cons xy rest =>
      obtain ⟨x, y⟩ := xy
      simp only [List.length_cons] at hfuel
      rw [fillLoop]
      by_cases hoob : x < 0 ∨ (w : Int) ≤ x ∨ y < 0 ∨ (h : Int) ≤ y
      · rw [if_pos hoob]
        exact ih d v rest hrange (by omega)
      · rw [if_neg hoob]
        by_cases hv : (y * w + x).toNat ∈ v
        · rw [if_pos hv]
          exact ih d v rest hrange (by omega)
        · rw [if_neg hv]
          push_neg at hoob
          obtain ⟨hx0, hxw, hy0, hyh⟩ := hoob
          have hposn : (y * (w : Int) + x).toNat = y.toNat * w + x.toNat := by
            obtain ⟨cx, hcx⟩ : ∃ cx : Nat, (cx : Int) = x := ⟨x.toNat, Int.toNat_of_nonneg hx0⟩
            obtain ⟨cy, hcy⟩ : ∃ cy : Nat, (cy : Int) = y := ⟨y.toNat, Int.toNat_of_nonneg hy0⟩
            subst hcx
            subst hcy
            simp only [Int.toNat_natCast]
            have e : ((cy : Int)) * (w : Int) = ((cy * w : Nat) : Int) := by push_cast; ring
            omega
          have hposlt : (y * (w : Int) + x).toNat < w * h := by
            rw [hposn]
            exact enc_lt x.toNat y.toNat w h (by omega) (by omega)
          have hrange2 : ∀ p ∈ insert ((y * w + x)).toNat v, p < w * h := by
            intro p hp
            rcases Finset.mem_insert.mp hp with rfl | hp
            · exact hposlt
            · exact hrange p hp
          have hcard : (insert ((y * w + x)).toNat v).card = v.card + 1 :=
            Finset.card_insert_of_not_mem hv
          have hsub : insert ((y * w + x)).toNat v ⊆ Finset.range (w * h) := by
            intro p hp
            rw [Finset.mem_range]
            exact hrange2 p hp
          have hle : (insert ((y * w + x)).toNat v).card ≤ w * h := by
            have := Finset.card_le_card hsub
            rwa [Finset.card_range] at this
          by_cases hm : matchesB d tR tG tB tol ((y * w + x) * 4) = true
          · rw [if_pos hm]
            apply ih _ _ _ hrange2
            simp only [List.length_cons]
            omega
          · rw [if_neg hm]
            exact ih d v rest hrange (by omega)

theorem Reaches_bounds (w h : Nat) (ok : Nat × Nat → Bool) (p q : Nat × Nat)
    (hr : Reaches w h ok p q) : q.1 < w ∧ q.2 < h ∧ ok q = true := by
  induction hr with
  | refl h1 h2 h3 => exact ⟨h1, h2, h3⟩
  | step hpq hadj h1 h2 h3 ih => exact ⟨h1, h2, h3⟩

theorem fillInv_complete (w h : Nat) (d0 : List Nat) (tR tG tB : Option Nat) (tol : Nat)
    (seed : Nat × Nat) (dF : List Nat) (vF : Finset Nat)
    (hinv : FillInv w h d0 tR tG tB tol seed ⟨dF, vF, []⟩) :
    ∀ c : Nat × Nat, Reaches w h (pixOk d0 tR tG tB tol w) seed c → (c.2 * w + c.1) ∈ vF := by
  intro c hr
  induction hr with
  | refl h1 h2 h3 =>
    rcases hinv.seedIn with hv | hstk
    · exact hv
    · exact absurd hstk (List.not_mem_nil _)
  | step hpq hadj h1 h2 h3 ih =>
    rename_i q' r'
    have hqb := Reaches_bounds w h _ seed q' hpq
    have hdec : ((q'.2 * w + q'.1) % w, (q'.2 * w + q'.1) / w) = q' := by
      rw [enc_mod q'.1 q'.2 w hqb.1, enc_div q'.1 q'.2 w hqb.1]
    rcases hinv.closure _ ih r' (by rw [hdec]; exact hadj) h1 h2 h3 with hv | hstk
    · exact hv
    · exact absurd hstk (List.not_mem_nil _)

theorem fillInv_init (w h : Nat) (d0 : List Nat) (tR tG tB : Option Nat) (tol : Nat)
    (seed : Nat × Nat) (hsx : seed.1 < w) (hsy : seed.2 < h)
    (hsok : pixOk d0 tR tG tB tol w seed = true) :
    FillInv w h d0 tR tG tB tol seed ⟨d0, ∅, [((seed.1 : Int), (seed.2 : Int))]⟩ := by
  refine ⟨?_, ?_, ?_, eraseInv_refl d0, ?_, ?_, ?_⟩
  · intro p hp
    exact absurd hp (Finset.not_mem_empty p)
  · intro p hp
    exact absurd hp (Finset.not_mem_empty p)
  · intro p hp
    exact absurd hp (Finset.not_mem_empty p)
  · intro xy hxy c hc hc1 hc2 hok
    rcases List.mem_cons.mp hxy with rfl | hxy
    · simp only [Prod.mk.injEq] at hc
      have hce : c = seed := Prod.ext (by omega) (by omega)
      rw [hce]
      exact Reaches.refl seed hsx hsy hsok
    · exact absurd hxy (List.not_mem_nil _)
  · intro p hp
    exact absurd hp (Finset.not_mem_empty p)
  · exact Or.inr (List.mem_cons_self _ _)

theorem fillLoop_start_nomatch (w h : Nat) (tR tG tB : Option Nat) (tol fuel : Nat)
    (d : List Nat) (sx sy : Int)
    (hin : ¬ (sx < 0 ∨ (w : Int) ≤ sx ∨ sy < 0 ∨ (h : Int) ≤ sy))
    (hm : matchesB d tR tG tB tol ((sy * w + sx) * 4) = false) :
    fillLoop w h tR tG tB tol (fuel + 1) ⟨d, ∅, [(sx, sy)]⟩ = some ⟨d, ∅, []⟩ := by
  rw [fillLoop, if_neg hin, if_neg (Finset.not_mem_empty _), if_neg (by simp [hm]), fillLoop]

theorem floodFill_main (s : EditorState) (sx sy : Nat)
    (hx : sx < s.canvas.width) (hy : sy < s.canvas.height)
    (ha : ∃ a, s.canvas.data[(sy * s.canvas.width + sx) * 4 + 3]? = some a ∧ 0 < a) :
    ∃ dF vF,
      floodFill s sx sy =
        { s with history := s.history ++ [s.canvas],
                 canvas := ⟨s.canvas.width, s.canvas.height, dF⟩ } ∧
      fillRegion s.canvas sx sy s.tolerance = vF ∧
      FillInv s.canvas.width s.canvas.height s.canvas.data
        (s.canvas.data[(sy * s.canvas.width + sx) * 4]?)
        (s.canvas.data[(sy * s.canvas.width + sx) * 4 + 1]?)
        (s.canvas.data[(sy * s.canvas.width + sx) * 4 + 2]?)
        s.tolerance (sx, sy) ⟨dF, vF, []⟩ := by
  obtain ⟨a, hga, hapos⟩ := ha
  have hlen3 : (sy * s.canvas.width + sx) * 4 + 3 < s.canvas.data.length :=
    (List.getElem?_eq_some.mp hga).1
  have hidx0 : ((sy : Int) * (s.canvas.width : Int) + (sx : Int)) * 4 =
      (((sy * s.canvas.width + sx) * 4 : Nat) : Int) := by
    push_cast
    ring
  have hR : readByte s.canvas.data (((sy : Int) * (s.canvas.width : Int) + (sx : Int)) * 4) =
      s.canvas.data[(sy * s.canvas.width + sx) * 4]? := by
    rw [hidx0, readByte_natCast]
  have hG : readByte s.canvas.data ((((sy : Int) * (s.canvas.width : Int) + (sx : Int))) * 4 + 1) =
      s.canvas.data[(sy * s.canvas.width + sx) * 4 + 1]? := by
    rw [hidx0,
      show ((((sy * s.canvas.width + sx) * 4 : Nat) : Int) + 1) =
        (((sy * s.canvas.width + sx) * 4 + 1 : Nat) : Int) by push_cast; ring,
      readByte_natCast]
  have hB : readByte s.canvas.data ((((sy : Int) * (s.canvas.width : Int) + (sx : Int))) * 4 + 2) =
      s.canvas.data[(sy * s.canvas.width + sx) * 4 + 2]? := by
    rw [hidx0,
      show ((((sy * s.canvas.width + sx) * 4 : Nat) : Int) + 2) =
        (((sy * s.canvas.width + sx) * 4 + 2 : Nat) : Int) by push_cast; ring,
      readByte_natCast]
  have hA : readByte s.canvas.data ((((sy : Int) * (s.canvas.width : Int) + (sx : Int))) * 4 + 3) =
      s.canvas.data[(sy * s.canvas.width + sx) * 4 + 3]? := by
    rw [hidx0,
      show ((((sy * s.canvas.width + sx) * 4 : Nat) : Int) + 3) =
        (((sy * s.canvas.width + sx) * 4 + 3 : Nat) : Int) by push_cast; ring,
      readByte_natCast]
  have hne : ¬ (readByte s.canvas.data
      ((((sy : Int) * (s.canvas.width : Int) + (sx : Int))) * 4 + 3) = some 0) := by
    rw [hA, hga]
    simp only [Option.some.injEq]
    omega
  have hsok : pixOk s.canvas.data
      (s.canvas.data[(sy * s.canvas.width + sx) * 4]?)
      (s.canvas.data[(sy * s.canvas.width + sx) * 4 + 1]?)
      (s.canvas.data[(sy * s.canvas.width + sx) * 4 + 2]?)
      s.tolerance s.canvas.width (sx, sy) = true := by
    rw [pixOk_eq_matchesN]
    show matchesN s.canvas.data _ _ _ s.tolerance (sy * s.canvas.width + sx) = true
    unfold matchesN
    rw [List.getElem?_eq_getElem (show (sy * s.canvas.width + sx) * 4 < s.canvas.data.length by omega),
        List.getElem?_eq_getElem (show (sy * s.canvas.width + sx) * 4 + 1 < s.canvas.data.length by omega),
        List.getElem?_eq_getElem (show (sy * s.canvas.width + sx) * 4 + 2 < s.canvas.data.length by omega),
        hga]
    unfold absDiffLe
    simp [Nat.dist_self, hapos]
  have hinv0 := fillInv_init s.canvas.width s.canvas.height s.canvas.data
    (s.canvas.data[(sy * s.canvas.width + sx) * 4]?)
    (s.canvas.data[(sy * s.canvas.width + sx) * 4 + 1]?)
    (s.canvas.data[(sy * s.canvas.width + sx) * 4 + 2]?)
    s.tolerance (sx, sy) hx hy hsok
  obtain ⟨dF, vF, heq, hinvF⟩ := fillLoop_inv s.canvas.width s.canvas.height s.canvas.data
    (s.canvas.data[(sy * s.canvas.width + sx) * 4]?)
    (s.canvas.data[(sy * s.canvas.width + sx) * 4 + 1]?)
    (s.canvas.data[(sy * s.canvas.width + sx) * 4 + 2]?)
    s.tolerance (sx, sy) hx hy hsok (4 * (s.canvas.width * s.canvas.height) + 1)
    s.canvas.data ∅ [((sx : Int), (sy : Int))] hinv0
    (by simp)
  refine ⟨dF, vF, ?_, ?_, hinvF⟩
  · unfold floodFill
    rw [if_neg hne, hR, hG, hB, heq]
  · unfold fillRegion
    rw [if_neg hne, hR, hG, hB, heq]

theorem readByte_seedIdx (d : List Nat) (w sx sy : Nat) :
    readByte d (((sy : Int) * (w : Int) + (sx : Int)) * 4) = d[(sy * w + sx) * 4]? := by
  rw [show (((sy : Int) * (w : Int) + (sx : Int)) * 4) = (((sy * w + sx) * 4 : Nat) : Int) by
    push_cast; ring, readByte_natCast]

theorem readByte_seedIdx1 (d : List Nat) (w sx sy : Nat) :
    readByte d (((sy : Int) * (w : Int) + (sx : Int)) * 4 + 1) = d[(sy * w + sx) * 4 + 1]? := by
  rw [show (((sy : Int) * (w : Int) + (sx : Int)) * 4 + 1) =
    (((sy * w + sx) * 4 + 1 : Nat) : Int) by push_cast; ring, readByte_natCast]

theorem readByte_seedIdx2 (d : List Nat) (w sx sy : Nat) :
    readByte d (((sy : Int) * (w : Int) + (sx : Int)) * 4 + 2) = d[(sy * w + sx) * 4 + 2]? := by
  rw [show (((sy : Int) * (w : Int) + (sx : Int)) * 4 + 2) =
    (((sy * w + sx) * 4 + 2 : Nat) : Int) by push_cast; ring, readByte_natCast]

theorem readByte_seedIdx3 (d : List Nat) (w sx sy : Nat) :
    readByte d (((sy : Int) * (w : Int) + (sx : Int)) * 4 + 3) = d[(sy * w + sx) * 4 + 3]? := by
  rw [show (((sy : Int) * (w : Int) + (sx : Int)) * 4 + 3) =
    (((sy * w + sx) * 4 + 3 : Nat) : Int) by push_cast; ring, readByte_natCast]

/-- Claim C4: for every buffer with an in-bounds seed whose pixel has alpha greater
than 0 and every tolerance, the set of pixels the fill makes transparent is
exactly the set of pixels 4-connected-reachable from the seed through pixels
with alpha greater than 0 whose R,G,B each differ from the seed colour by at
most the tolerance (per-channel absolute difference), and the seed itself is in
that set. -/
theorem fill_region_eq_reachable (s : EditorState) (sx sy : Nat)
    (hx : sx < s.canvas.width) (hy : sy < s.canvas.height)
    (ha : ∃ a, s.canvas.data[(sy * s.canvas.width + sx) * 4 + 3]? = some a ∧ 0 < a) :
    Reaches s.canvas.width s.canvas.height (fillOk s.canvas sx sy s.tolerance) (sx, sy) (sx, sy) ∧
    ∀ c : Nat × Nat, c.1 < s.canvas.width → c.2 < s.canvas.height →
      (erasedPix s.canvas (floodFill s sx sy).canvas c ↔
        Reaches s.canvas.width s.canvas.height (fillOk s.canvas sx sy s.tolerance) (sx, sy) c) := by
  obtain ⟨dF, vF, hff, hreg, hinvF⟩ := floodFill_main s sx sy hx hy ha
  have hokEq : fillOk s.canvas sx sy s.tolerance =
      pixOk s.canvas.data
        (s.canvas.data[(sy * s.canvas.width + sx) * 4]?)
        (s.canvas.data[(sy * s.canvas.width + sx) * 4 + 1]?)
        (s.canvas.data[(sy * s.canvas.width + sx) * 4 + 2]?)
        s.tolerance s.canvas.width := by
    unfold fillOk
    rw [readByte_seedIdx, readByte_seedIdx1, readByte_seedIdx2]
  have hseedv : (sy * s.canvas.width + sx) ∈ vF := by
    rcases hinvF.seedIn with hv | hstk
    · exact hv
    · exact absurd hstk (List.not_mem_nil _)
  have hdata : (floodFill s sx sy).canvas.data = dF := by
    rw [hff]
  constructor
  · -- the seed is reachable
    have hokseed := hinvF.vOk _ hseedv
    refine Reaches.refl (sx, sy) hx hy ?_
    rw [hokEq, pixOk_eq_matchesN]
    exact hokseed
  · intro c hc1 hc2
    have hdec : ((c.2 * s.canvas.width + c.1) % s.canvas.width,
        (c.2 * s.canvas.width + c.1) / s.canvas.width) = c := by
      rw [enc_mod c.1 c.2 s.canvas.width hc1, enc_div c.1 c.2 s.canvas.width hc1]
    constructor
    · rintro ⟨hafter, b, hbefore, hbpos⟩
      rw [hdata] at hafter
      by_cases hcv : (c.2 * s.canvas.width + c.1) ∈ vF
      · have hre := hinvF.vReach _ hcv
        rw [hdec] at hre
        rw [hokEq]
        exact hre
      · exfalso
        have := eraseInv_alpha_unvisited s.canvas.data dF vF hinvF.dataInv _ hcv
        rw [hafter, hbefore] at this
        simp only [Option.some.injEq] at this
        omega
    · intro hr
      rw [hokEq] at hr
      have hcv := fillInv_complete s.canvas.width s.canvas.height s.canvas.data
        _ _ _ s.tolerance (sx, sy) dF vF hinvF c hr
      obtain ⟨b, hb, hbpos⟩ := matchesN_alpha s.canvas.data _ _ _ s.tolerance _
        (hinvF.vOk _ hcv)
      refine ⟨?_, b, hb, hbpos⟩
      rw [hdata]
      rw [eraseInv_alpha_visited s.canvas.data dF vF hinvF.dataInv _ hcv, hb]
      rfl

/-- Witness for C4: on `exBuf22` with tolerance 5, clicking the top-left pixel,
whose colour chain reaches the bottom-right pixel, the characterization applies
at the seed and at the bottom-right pixel. -/
theorem fill_region_eq_reachable_witness :
    Reaches 2 2 (fillOk exBuf22 0 0 5) (0, 0) (0, 0) ∧
    (erasedPix exBuf22 (floodFill ⟨0, 100, [exBuf22], exBuf22, true, 5⟩ 0 0).canvas (1, 1) ↔
      Reaches 2 2 (fillOk exBuf22 0 0 5) (0, 0) (1, 1)) := by
  have hmain := fill_region_eq_reachable ⟨0, 100, [exBuf22], exBuf22, true, 5⟩ 0 0
    (by decide) (by decide) ⟨255, by decide, by decide⟩
  exact ⟨hmain.1, hmain.2 (1, 1) (by decide) (by decide)⟩

theorem floodFill_frame_core (s : EditorState) (sx sy : Int) :
    ∃ dF vF, (floodFill s sx sy).canvas.data = dF ∧
      fillRegion s.canvas sx sy s.tolerance = vF ∧
      eraseInv s.canvas.data dF vF ∧
      (∀ p ∈ vF, ∃ a, s.canvas.data[p * 4 + 3]? = some a ∧ 0 < a) ∧
      (∀ p ∈ vF, ∀ c : Nat × Nat, c.1 < s.canvas.width → c.2 < s.canvas.height →
        p = c.2 * s.canvas.width + c.1 → fillOk s.canvas sx sy s.tolerance c = true) := by
  by_cases hz : readByte s.canvas.data ((sy * (s.canvas.width : Int) + sx) * 4 + 3) = some 0
  · -- already-transparent early return
    refine ⟨s.canvas.data, ∅, ?_, ?_, eraseInv_refl s.canvas.data, ?_, ?_⟩
    · rw [floodFill_early s sx sy hz]
    · unfold fillRegion
      rw [if_pos hz]
    · intro p hp
      exact absurd hp (Finset.not_mem_empty p)
    · intro p hp
      exact absurd hp (Finset.not_mem_empty p)
  · by_cases hoob : sx < 0 ∨ (s.canvas.width : Int) ≤ sx ∨ sy < 0 ∨ (s.canvas.height : Int) ≤ sy
    · -- out-of-bounds seed: the loop discards it
      refine ⟨s.canvas.data, ∅, ?_, ?_, eraseInv_refl s.canvas.data, ?_, ?_⟩
      · unfold floodFill
        rw [if_neg hz, fillLoop_oob _ _ _ _ _ _ _ _ _ _ _ hoob]
      · unfold fillRegion
        rw [if_neg hz, fillLoop_oob _ _ _ _ _ _ _ _ _ _ _ hoob]
      · intro p hp
        exact absurd hp (Finset.not_mem_empty p)
      · intro p hp
        exact absurd hp (Finset.not_mem_empty p)
    · -- in-bounds seed
      have hoob2 := hoob
      push_neg at hoob2
      obtain ⟨hx0, hxw, hy0, hyh⟩ := hoob2
      obtain ⟨nx, rfl⟩ : ∃ nx : Nat, ((nx : Nat) : Int) = sx := ⟨sx.toNat, Int.toNat_of_nonneg hx0⟩
      obtain ⟨ny, rfl⟩ : ∃ ny : Nat, ((ny : Nat) : Int) = sy := ⟨sy.toNat, Int.toNat_of_nonneg hy0⟩
      have hnx : nx < s.canvas.width := by omega
      have hny : ny < s.canvas.height := by omega
      by_cases hm : matchesB s.canvas.data
          (readByte s.canvas.data (((ny : Int) * (s.canvas.width : Int) + (nx : Int)) * 4))
          (readByte s.canvas.data (((ny : Int) * (s.canvas.width : Int) + (nx : Int)) * 4 + 1))
          (readByte s.canvas.data (((ny : Int) * (s.canvas.width : Int) + (nx : Int)) * 4 + 2))
          s.tolerance (((ny : Int) * (s.canvas.width : Int) + (nx : Int)) * 4) = true
      · -- the seed matches: the full machinery applies
        have ha : ∃ a, s.canvas.data[(ny * s.canvas.width + nx) * 4 + 3]? = some a ∧ 0 < a := by
          unfold matchesB at hm
          simp only [Bool.and_eq_true] at hm
          rcases hm with ⟨-, hm⟩
          rw [readByte_seedIdx3] at hm
          revert hm
          match he : s.canvas.data[(ny * s.canvas.width + nx) * 4 + 3]? with
          | some a => intro hm; exact ⟨a, rfl, by simpa using hm⟩
          | none => intro hm; simp at hm
        obtain ⟨dF, vF, hff, hreg, hinvF⟩ := floodFill_main s nx ny hnx hny ha
        have hokEq : fillOk s.canvas nx ny s.tolerance =
            pixOk s.canvas.data
              (s.canvas.data[(ny * s.canvas.width + nx) * 4]?)
              (s.canvas.data[(ny * s.canvas.width + nx) * 4 + 1]?)
              (s.canvas.data[(ny * s.canvas.width + nx) * 4 + 2]?)
              s.tolerance s.canvas.width := by
          unfold fillOk
          rw [readByte_seedIdx, readByte_seedIdx1, readByte_seedIdx2]
        refine ⟨dF, vF, by rw [hff], hreg, hinvF.dataInv, ?_, ?_⟩
        · intro p hp
          exact matchesN_alpha s.canvas.data _ _ _ s.tolerance p (hinvF.vOk p hp)
        · intro p hp c hc1 hc2 hpc
          rw [hokEq, pixOk_eq_matchesN, ← hpc]
          exact hinvF.vOk p hp
      · -- the seed does not match: the loop visits nothing
        have hmf : matchesB s.canvas.data
            (readByte s.canvas.data (((ny : Int) * (s.canvas.width : Int) + (nx : Int)) * 4))
            (readByte s.canvas.data (((ny : Int) * (s.canvas.width : Int) + (nx : Int)) * 4 + 1))
            (readByte s.canvas.data (((ny : Int) * (s.canvas.width : Int) + (nx : Int)) * 4 + 2))
            s.tolerance (((ny : Int) * (s.canvas.width : Int) + (nx : Int)) * 4) = false := by
          revert hm
          cases matchesB s.canvas.data
            (readByte s.canvas.data (((ny : Int) * (s.canvas.width : Int) + (nx : Int)) * 4))
            (readByte s.canvas.data (((ny : Int) * (s.canvas.width : Int) + (nx : Int)) * 4 + 1))
            (readByte s.canvas.data (((ny : Int) * (s.canvas.width : Int) + (nx : Int)) * 4 + 2))
            s.tolerance (((ny : Int) * (s.canvas.width : Int) + (nx : Int)) * 4) <;> simp
        refine ⟨s.canvas.data, ∅, ?_, ?_, eraseInv_refl s.canvas.data, ?_, ?_⟩
        · unfold floodFill
          rw [if_neg hz, fillLoop_start_nomatch _ _ _ _ _ _ _ _ _ _ hoob hmf]
        · unfold fillRegion
          rw [if_neg hz, fillLoop_start_nomatch _ _ _ _ _ _ _ _ _ _ hoob hmf]
        · intro p hp
          exact absurd hp (Finset.not_mem_empty p)
        · intro p hp
          exact absurd hp (Finset.not_mem_empty p)

/-- Claim C5: in every fill call, pixels outside the computed fill region keep all
four RGBA bytes; pixels inside the region get alpha 0 with R,G,B kept; and any
in-bounds pixel failing the tolerance test against the seed colour (in
particular every pixel of a tolerance-incompatible second region) is outside
the region, hence untouched. -/
theorem fill_frame_condition (s : EditorState) (sx sy : Int) :
    (∀ p : Nat, p ∉ fillRegion s.canvas sx sy s.tolerance → ∀ j, j < 4 →
      (floodFill s sx sy).canvas.data[p * 4 + j]? = s.canvas.data[p * 4 + j]?) ∧
    (∀ p ∈ fillRegion s.canvas sx sy s.tolerance,
      (floodFill s sx sy).canvas.data[p * 4 + 3]? = some 0 ∧
      ∀ j, j < 3 → (floodFill s sx sy).canvas.data[p * 4 + j]? = s.canvas.data[p * 4 + j]?) ∧
    (∀ c : Nat × Nat, c.1 < s.canvas.width → c.2 < s.canvas.height →
      fillOk s.canvas sx sy s.tolerance c = false →
      (c.2 * s.canvas.width + c.1) ∉ fillRegion s.canvas sx sy s.tolerance) := by
  obtain ⟨dF, vF, hdata, hreg, herase, halpha, hok⟩ := floodFill_frame_core s sx sy
  rw [hreg, hdata]
  refine ⟨?_, ?_, ?_⟩
  · intro p hp j hj
    by_cases hj3 : j = 3
    · subst hj3
      exact eraseInv_alpha_unvisited _ _ _ herase p hp
    · exact eraseInv_rgb _ _ _ herase p j (by omega)
  · intro p hp
    obtain ⟨a, hga, hapos⟩ := halpha p hp
    refine ⟨?_, ?_⟩
    · rw [eraseInv_alpha_visited _ _ _ herase p hp, hga]
      rfl
    · intro j hj
      exact eraseInv_rgb _ _ _ herase p j hj
  · intro c hc1 hc2 hokf hmem
    have := hok _ hmem c hc1 hc2 rfl
    rw [hokf] at this
    exact Bool.false_ne_true this

/-- Witness for C5: on the 2 by 2 bitmap, the grey pixel (linear index 2) is
outside the region and untouched, the seed pixel becomes transparent, and the
tolerance-incompatible pixel (0,1) is excluded from the region. -/
theorem fill_frame_condition_witness :
    (floodFill ⟨0, 100, [exBuf22], exBuf22, true, 5⟩ 0 0).canvas.data[2 * 4 + 3]? =
      exBuf22.data[2 * 4 + 3]? ∧
    (floodFill ⟨0, 100, [exBuf22], exBuf22, true, 5⟩ 0 0).canvas.data[0 * 4 + 3]? = some 0 ∧
    ((0, 1) : Nat × Nat).2 * 2 + ((0, 1) : Nat × Nat).1 ∉ fillRegion exBuf22 0 0 5 := by
  have hmain := fill_frame_condition ⟨0, 100, [exBuf22], exBuf22, true, 5⟩ 0 0
  exact ⟨hmain.1 2 (by decide) 3 (by decide), (hmain.2.1 0 (by decide)).1,
    hmain.2.2 (0, 1) (by decide) (by decide) (by decide)⟩

/-- Claim C10: the flood-fill work-list loop always terminates: from the initial
state (empty visited set, the seed as sole work item) it finishes within
4*(width*height)+1 iterations, because a pixel enters the visited set at most
once and only a newly visited pixel pushes its four neighbours. -/
theorem fillLoop_terminates (w h : Nat) (tR tG tB : Option Nat) (tol : Nat)
    (d : List Nat) (sx sy : Int) :
    (fillLoop w h tR tG tB tol (4 * (w * h) + 1) ⟨d, ∅, [(sx, sy)]⟩).isSome = true := by
  apply fillLoop_isSome
  · intro p hp
    exact absurd hp (Finset.not_mem_empty p)
  · simp

/-! ## The complete click and undo gestures (handler plus triggered re-render) -/

theorem floodFill_shape (s : EditorState) (x y : Int) :
    ∃ cv, floodFill s x y = { s with history := s.history ++ [s.canvas], canvas := cv } := by
  unfold floodFill
  by_cases hz : readByte s.canvas.data ((y * (s.canvas.width : Int) + x) * 4 + 3) = some 0
  · rw [if_pos hz]
    exact ⟨s.canvas, rfl⟩
  · rw [if_neg hz]
    split
    · exact ⟨_, rfl⟩
    · exact ⟨s.canvas, rfl⟩

theorem renderCanvas_canvas (draw : Nat → Nat → ImageData) (s : EditorState) :
    (renderCanvas draw s).canvas = draw s.rotation s.scale := by
  unfold renderCanvas
  split
  · rfl
  · rfl

theorem renderCanvas_rotation (draw : Nat → Nat → ImageData) (s : EditorState) :
    (renderCanvas draw s).rotation = s.rotation := by
  unfold renderCanvas
  split
  · rfl
  · rfl

theorem renderCanvas_scale (draw : Nat → Nat → ImageData) (s : EditorState) :
    (renderCanvas draw s).scale = s.scale := by
  unfold renderCanvas
  split
  · rfl
  · rfl

theorem renderCanvas_history (draw : Nat → Nat → ImageData) (s : EditorState)
    (h : s.history ≠ []) : (renderCanvas draw s).history = s.history := by
  unfold renderCanvas
  rw [if_neg (by rw [List.length_eq_zero]; exact h)]

theorem handleUndo_rotation (s : EditorState) : (handleUndo s).rotation = s.rotation := by
  unfold handleUndo
  split
  · rfl
  · split
    · rfl
    · rfl

theorem handleUndo_scale (s : EditorState) : (handleUndo s).scale = s.scale := by
  unfold handleUndo
  split
  · rfl
  · split
    · rfl
    · rfl

theorem clickOp_eq (draw : Nat → Nat → ImageData) (s : EditorState) (x y : Int)
    (hmode : s.bgRemoveMode = true) :
    clickOp draw s x y =
      { s with history := s.history ++ [s.canvas], canvas := draw s.rotation s.scale } := by
  obtain ⟨cv, hff⟩ := floodFill_shape s x y
  unfold clickOp handleCanvasClick
  rw [if_pos hmode, if_pos hmode, hff]
  unfold renderCanvas
  rw [if_neg (by simp)]

/-! ## C1 -/

/-- Claim C1: with erase mode active, a click that erases pixels followed
immediately by undo() leaves the pixel buffer identical (same dimensions,
every RGBA byte) to the buffer immediately before the click.  The operations
here are the complete gestures: each includes the `renderCanvas` re-run that
its `setHistory` call triggers, so in the quiescent state the canvas before
the click, after the click, and after the undo all show the rendering of the
current rotation and scale — the click ends with a redraw of the original
image, and so does the undo. -/
theorem undo_after_click_restores (draw : Nat → Nat → ImageData) (s : EditorState) (x y : Int)
    (hmode : s.bgRemoveMode = true)
    (hq : s.canvas = draw s.rotation s.scale)
    (herase : fillRegion s.canvas x y s.tolerance ≠ ∅) :
    (undoOp draw (clickOp draw s x y)).canvas = s.canvas := by
  rw [clickOp_eq draw s x y hmode]
  unfold undoOp
  by_cases hl : s.history.length = 0
  · rw [if_pos (by simp [hl])]
    exact hq.symm
  · rw [if_neg (by simp only [List.length_append, List.length_cons, List.length_nil]; omega)]
    rw [renderCanvas_canvas, handleUndo_rotation, handleUndo_scale]
    exact hq.symm

/-- Witness for C1: the 2-by-1 session, quiescent under a drawing function
that always renders its bitmap; the click at (0,0) erases the left pixel. -/
theorem undo_after_click_restores_witness :
    (undoOp exDraw21 (clickOp exDraw21 exSession 0 0)).canvas = exSession.canvas :=
  undo_after_click_restores exDraw21 exSession 0 0 (by decide) (by decide) (by decide)

/-! ## C2 -/

theorem quiescent_renderCanvas_reset (draw : Nat → Nat → ImageData) (s : EditorState)
    (h : s.history = []) : quiescent draw (renderCanvas draw s) := by
  unfold renderCanvas
  rw [if_pos (by rw [h]; rfl)]
  refine ⟨rfl, by simp, ?_⟩
  intro b hb
  simp only [List.mem_singleton] at hb
  rw [hb]

theorem quiescent_load (draw : Nat → Nat → ImageData) (s : EditorState) :
    quiescent draw (loadImage draw s) := by
  unfold loadImage
  exact quiescent_renderCanvas_reset draw _ rfl

theorem quiescent_rotate (draw : Nat → Nat → ImageData) (cw : Bool) (s : EditorState) :
    quiescent draw (handleRotate draw cw s) := by
  unfold handleRotate
  exact quiescent_renderCanvas_reset draw _ rfl

theorem quiescent_scale (draw : Nat → Nat → ImageData) (v : Nat) (s : EditorState) :
    quiescent draw (handleScaleChange draw v s) := by
  unfold handleScaleChange
  exact quiescent_renderCanvas_reset draw _ rfl

theorem quiescent_click (draw : Nat → Nat → ImageData) (s : EditorState) (x y : Int)
    (hq : quiescent draw s) : quiescent draw (clickOp draw s x y) := by
  obtain ⟨hcv, hne, hmem⟩ := hq
  cases hmode : s.bgRemoveMode with
  | false =>
    unfold clickOp
    rw [if_neg (by simp [hmode])]
    exact ⟨hcv, hne, hmem⟩
  | true =>
    rw [clickOp_eq draw s x y hmode]
    refine ⟨rfl, by simp, ?_⟩
    intro b hb
    rcases List.mem_append.mp hb with hb | hb
    · rw [hmem b hb]
      exact hcv
    · simp only [List.mem_singleton] at hb
      rw [hb]
      exact hcv

theorem quiescent_undo (draw : Nat → Nat → ImageData) (s : EditorState)
    (hq : quiescent draw s) : quiescent draw (undoOp draw s) := by
  obtain ⟨hcv, hne, hmem⟩ := hq
  unfold undoOp
  by_cases hl : s.history.length ≤ 1
  · rw [if_pos hl]
    exact ⟨hcv, hne, hmem⟩
  · rw [if_neg hl]
    have hhist : (handleUndo s).history ≠ [] ∧ ∀ b ∈ (handleUndo s).history, b ∈ s.history := by
      unfold handleUndo
      rw [if_neg hl]
      split
      · constructor
        · have hlen : s.history.dropLast.length = s.history.length - 1 :=
            List.length_dropLast _
          intro hcon
          have hcon2 : s.history.dropLast = [] := hcon
          rw [hcon2] at hlen
          simp only [List.length_nil] at hlen
          omega
        · intro b hb
          exact List.dropLast_subset _ hb
      · exact ⟨hne, fun b hb => hb⟩
    refine ⟨?_, ?_, ?_⟩
    · rw [renderCanvas_canvas, renderCanvas_rotation, renderCanvas_scale,
        handleUndo_rotation, handleUndo_scale]
    · rw [renderCanvas_history draw _ hhist.1]
      exact hhist.1
    · intro b hb
      rw [renderCanvas_history draw _ hhist.1] at hb
      rw [renderCanvas_canvas, handleUndo_rotation, handleUndo_scale]
      rw [hmem b (hhist.2 b hb)]
      exact hcv

theorem quiescent_histInv (draw : Nat → Nat → ImageData) (s : EditorState)
    (hq : quiescent draw s) : histInv s := by
  obtain ⟨hcv, hne, hmem⟩ := hq
  unfold histInv
  cases hg : s.history.getLast? with
  | none => exact absurd (List.getLast?_eq_none_iff.mp hg) hne
  | some l =>
    rw [hmem l (List.mem_of_mem_getLast? hg)]

/-- Claim C2: after loading an image and then applying any sequence of session
operations (load, rotation change, scale change, click-to-erase, undo), the
current canvas is byte-for-byte equal to the last history entry.  Each
operation is the complete gesture including the `renderCanvas` re-run its
state updates trigger: every history change is followed by a redraw of the
original image at the current rotation and scale, so every operation leaves
the session quiescent with all history snapshots equal to the canvas. -/
theorem histInv_after_every_operation (draw : Nat → Nat → ImageData) (s0 : EditorState)
    (ops : List SessionOp) :
    histInv (ops.foldl (fun s op => applyOp draw op s) (loadImage draw s0)) := by
  have hstep : ∀ (op : SessionOp) (s : EditorState), quiescent draw s →
      quiescent draw (applyOp draw op s) := by
    intro op s hqs
    cases op with
    | load => exact quiescent_load draw s
    | rotate cw => exact quiescent_rotate draw cw s
    | scaleTo v => exact quiescent_scale draw v s
    | click x y => exact quiescent_click draw s x y hqs
    | undo => exact quiescent_undo draw s hqs
  have hfold : ∀ (l : List SessionOp) (s : EditorState), quiescent draw s →
      quiescent draw (l.foldl (fun s op => applyOp draw op s) s) := by
    intro l
    induction l with
    | nil =>
      intro s hs
      exact hs
    | cons op rest ih =>
      intro s hs
      exact ih _ (hstep op s hs)
  exact quiescent_histInv draw _ (hfold ops _ (quiescent_load draw s0))
